import Mathlib

/-
Verification of the CRB evaluators of doatools (src/doatools/performance/crb.py).

The three evaluators `crb_sto_farfield_1d`, `crb_det_farfield_1d` and
`crb_stouc_farfield_1d` are shallowly embedded over exact complex rational
arithmetic (Gaussian rationals `GQ`).  numpy's `linalg.inv` and `linalg.solve`
are modelled by the exact matrix inverse `det⁻¹ • adjugate` and raise
(`CrbErr.singular`) precisely on singular matrices, matching exact-arithmetic
numpy semantics.  Fallible evaluation is modelled with `Except`.  The two
power-spec normalizers and the placement class live in repository files not
present under src/ and are modelled from the spec, as marked on their doc
comments.
-/

set_option maxHeartbeats 1600000

open scoped Matrix

/-- Gaussian rationals: complex numbers with rational real and imaginary
parts, embedding the complex matrix arithmetic of crb.py exactly. -/
structure GQ where
  re : ℚ
  im : ℚ
deriving DecidableEq

theorem GQ.ext2 {a b : GQ} (h1 : a.re = b.re) (h2 : a.im = b.im) : a = b := by
  cases a; cases b; simp_all

instance : Zero GQ := ⟨⟨0, 0⟩⟩

instance : One GQ := ⟨⟨1, 0⟩⟩

instance : Add GQ := ⟨fun a b => ⟨a.re + b.re, a.im + b.im⟩⟩

instance : Neg GQ := ⟨fun a => ⟨-a.re, -a.im⟩⟩

instance : Mul GQ := ⟨fun a b => ⟨a.re * b.re - a.im * b.im, a.re * b.im + a.im * b.re⟩⟩

@[simp] theorem GQ.zero_re : (0 : GQ).re = 0 := rfl

@[simp] theorem GQ.zero_im : (0 : GQ).im = 0 := rfl

@[simp] theorem GQ.one_re : (1 : GQ).re = 1 := rfl

@[simp] theorem GQ.one_im : (1 : GQ).im = 0 := rfl

@[simp] theorem GQ.add_re (a b : GQ) : (a + b).re = a.re + b.re := rfl

@[simp] theorem GQ.add_im (a b : GQ) : (a + b).im = a.im + b.im := rfl

@[simp] theorem GQ.neg_re (a : GQ) : (-a).re = -a.re := rfl

@[simp] theorem GQ.neg_im (a : GQ) : (-a).im = -a.im := rfl

@[simp] theorem GQ.mul_re (a b : GQ) : (a * b).re = a.re * b.re - a.im * b.im := rfl

@[simp] theorem GQ.mul_im (a b : GQ) : (a * b).im = a.re * b.im + a.im * b.re := rfl

instance : CommRing GQ where
  add_assoc a b c := by apply GQ.ext2 <;> simp <;> ring
  zero_add a := by apply GQ.ext2 <;> simp
  add_zero a := by apply GQ.ext2 <;> simp
  add_comm a b := by apply GQ.ext2 <;> simp <;> ring
  mul_assoc a b c := by apply GQ.ext2 <;> simp <;> ring
  one_mul a := by apply GQ.ext2 <;> simp
  mul_one a := by apply GQ.ext2 <;> simp
  left_distrib a b c := by apply GQ.ext2 <;> simp <;> ring
  right_distrib a b c := by apply GQ.ext2 <;> simp <;> ring
  mul_comm a b := by apply GQ.ext2 <;> simp <;> ring
  zero_mul a := by apply GQ.ext2 <;> simp
  mul_zero a := by apply GQ.ext2 <;> simp
  neg_add_cancel a := by apply GQ.ext2 <;> simp
  nsmul := nsmulRec
  zsmul := zsmulRec

@[simp] theorem GQ.sub_re (a b : GQ) : (a - b).re = a.re - b.re := by
  simp [sub_eq_add_neg]

@[simp] theorem GQ.sub_im (a b : GQ) : (a - b).im = a.im - b.im := by
  simp [sub_eq_add_neg]

instance : StarRing GQ where
  star a := ⟨a.re, -a.im⟩
  star_involutive a := by apply GQ.ext2 <;> simp [star]
  star_mul a b := by apply GQ.ext2 <;> simp [star] <;> ring
  star_add a b := by apply GQ.ext2 <;> simp [star] <;> ring

@[simp] theorem GQ.star_re (a : GQ) : (star a).re = a.re := rfl

@[simp] theorem GQ.star_im (a : GQ) : (star a).im = -a.im := rfl

theorem GQ.eq_iff {a b : GQ} : a = b ↔ a.re = b.re ∧ a.im = b.im := by
  constructor
  · rintro rfl; exact ⟨rfl, rfl⟩
  · rintro ⟨h1, h2⟩; exact GQ.ext2 h1 h2

/-- Embedding of the rationals into the Gaussian rationals. -/
def GQ.ofRat (q : ℚ) : GQ := ⟨q, 0⟩

@[simp] theorem GQ.ofRat_re (q : ℚ) : (GQ.ofRat q).re = q := rfl

@[simp] theorem GQ.ofRat_im (q : ℚ) : (GQ.ofRat q).im = 0 := rfl

/-- Multiplicative inverse of a Gaussian rational (0 for input 0). -/
def GQ.inv (a : GQ) : GQ :=
  ⟨a.re / (a.re * a.re + a.im * a.im), -a.im / (a.re * a.re + a.im * a.im)⟩

theorem GQ.mul_inv_cancel {a : GQ} (h : a ≠ 0) : a * GQ.inv a = 1 := by
  have hne : a.re * a.re + a.im * a.im ≠ 0 := by
    intro hz
    apply h
    have h1 : a.re * a.re = 0 ∧ a.im * a.im = 0 := by
      constructor <;> nlinarith [mul_self_nonneg a.re, mul_self_nonneg a.im]
    apply GQ.ext2
    · exact mul_self_eq_zero.mp h1.1
    · exact mul_self_eq_zero.mp h1.2
  apply GQ.ext2 <;> simp [GQ.inv] <;> field_simp <;> ring

/-- Elementwise (Hadamard) product, numpy's `*` on two arrays. -/
def had {I J : Type} (A B : Matrix I J GQ) : Matrix I J GQ :=
  Matrix.of fun i j => A i j * B i j

/-- Elementwise real part, numpy's `.real`. -/
def reMat {I J : Type} (A : Matrix I J GQ) : Matrix I J ℚ :=
  Matrix.of fun i j => (A i j).re

/-- Elementwise complex conjugate, numpy's `.conj()`. -/
def conjMat {I J : Type} (A : Matrix I J GQ) : Matrix I J GQ :=
  Matrix.of fun i j => star (A i j)

/-- Executable determinant of a `Fin`-indexed square matrix by Laplace
expansion along the first row; proved equal to Mathlib's `Matrix.det` in
`detFin_eq`. -/
def detFin {R : Type} [CommRing R] : (n : ℕ) → Matrix (Fin n) (Fin n) R → R
  | 0, _ => 1
  | n + 1, M =>
    ∑ j : Fin (n + 1), (-1 : R) ^ (j : ℕ) * M 0 j * detFin n (M.submatrix Fin.succ j.succAbove)

theorem detFin_eq {R : Type} [CommRing R] :
    ∀ (n : ℕ) (M : Matrix (Fin n) (Fin n) R), detFin n M = M.det
  | 0, M => by simp [detFin, Matrix.det_fin_zero]
  | n + 1, M => by
    rw [detFin, Matrix.det_succ_row_zero]
    exact Finset.sum_congr rfl fun j _ => by rw [detFin_eq n]

/-- Executable adjugate (cofactor matrix) of a `Fin`-indexed square matrix;
proved equal to Mathlib's `Matrix.adjugate` in `adjFin_eq`. -/
def adjFin {R : Type} [CommRing R] (n : ℕ) (M : Matrix (Fin n) (Fin n) R) :
    Matrix (Fin n) (Fin n) R :=
  Matrix.of fun i j => detFin n (M.updateRow j (Pi.single i 1))

theorem adjFin_eq {R : Type} [CommRing R] (n : ℕ) (M : Matrix (Fin n) (Fin n) R) :
    adjFin n M = M.adjugate := by
  ext i j
  rw [adjFin, Matrix.of_apply, detFin_eq, Matrix.adjugate_apply]

theorem detFin_one {R : Type} [CommRing R] (M : Matrix (Fin 1) (Fin 1) R) :
    detFin 1 M = M 0 0 := by
  rw [detFin_eq, Matrix.det_fin_one]

theorem detFin_two {R : Type} [CommRing R] (M : Matrix (Fin 2) (Fin 2) R) :
    detFin 2 M = M 0 0 * M 1 1 - M 0 1 * M 1 0 := by
  rw [detFin_eq, Matrix.det_fin_two]

theorem detFin_three {R : Type} [CommRing R] (M : Matrix (Fin 3) (Fin 3) R) :
    detFin 3 M =
      M 0 0 * M 1 1 * M 2 2 - M 0 0 * M 1 2 * M 2 1 - M 0 1 * M 1 0 * M 2 2
        + M 0 1 * M 1 2 * M 2 0 + M 0 2 * M 1 0 * M 2 1 - M 0 2 * M 1 1 * M 2 0 := by
  rw [detFin_eq, Matrix.det_fin_three]

theorem adjFin_one {R : Type} [CommRing R] (M : Matrix (Fin 1) (Fin 1) R) :
    adjFin 1 M = 1 := by
  rw [adjFin_eq, Matrix.adjugate_fin_one]

theorem adjFin_two {R : Type} [CommRing R] (M : Matrix (Fin 2) (Fin 2) R) :
    adjFin 2 M = !![M 1 1, -M 0 1; -M 1 0, M 0 0] := by
  rw [adjFin_eq, Matrix.adjugate_fin_two]

theorem adjFin_three {R : Type} [CommRing R] (M : Matrix (Fin 3) (Fin 3) R) :
    adjFin 3 M =
      !![M 1 1 * M 2 2 - M 1 2 * M 2 1, -(M 0 1 * M 2 2) + M 0 2 * M 2 1,
          M 0 1 * M 1 2 - M 0 2 * M 1 1;
        -(M 1 0 * M 2 2) + M 1 2 * M 2 0, M 0 0 * M 2 2 - M 0 2 * M 2 0,
          -(M 0 0 * M 1 2) + M 0 2 * M 1 0;
        M 1 0 * M 2 1 - M 1 1 * M 2 0, -(M 0 0 * M 2 1) + M 0 1 * M 2 0,
          M 0 0 * M 1 1 - M 0 1 * M 1 0] := by
  rw [adjFin_eq, Matrix.adjugate_fin_three]

/-- Exact inverse of a complex matrix, modelling `np.linalg.inv` (and, as
`cinvF M * B`, the solution `np.linalg.solve(M, B)`) in exact arithmetic;
junk on singular input, which the evaluators rule out by the same
determinant test on which numpy raises `LinAlgError`. -/
def cinvF (n : ℕ) (A : Matrix (Fin n) (Fin n) GQ) : Matrix (Fin n) (Fin n) GQ :=
  GQ.inv (detFin n A) • adjFin n A

/-- Exact inverse of a real matrix, modelling `np.linalg.inv`. -/
def rinvF (n : ℕ) (A : Matrix (Fin n) (Fin n) ℚ) : Matrix (Fin n) (Fin n) ℚ :=
  (detFin n A)⁻¹ • adjFin n A

/-- `cinvF` really is the two-sided inverse whenever the determinant test
passes: this grounds the `np.linalg.inv` / `np.linalg.solve` model. -/
theorem cinvF_mul {n : ℕ} (A : Matrix (Fin n) (Fin n) GQ) (h : detFin n A ≠ 0) :
    A * cinvF n A = 1 := by
  rw [cinvF, adjFin_eq, Matrix.mul_smul, Matrix.mul_adjugate, detFin_eq] at *
  rw [smul_smul, mul_comm, GQ.mul_inv_cancel h, one_smul]

/-- `rinvF` really is the two-sided inverse whenever the determinant test
passes. -/
theorem rinvF_mul {n : ℕ} (A : Matrix (Fin n) (Fin n) ℚ) (h : detFin n A ≠ 0) :
    A * rinvF n A = 1 := by
  rw [rinvF, adjFin_eq, Matrix.mul_smul, Matrix.mul_adjugate, detFin_eq] at *
  rw [smul_smul, mul_comm, mul_inv_cancel₀ h, one_smul]

/-- The final symmetrization `0.5 * (CRB + CRB.T)` shared by all three
evaluators. -/
def symmHalf {I : Type} (M : Matrix I I ℚ) : Matrix I I ℚ :=
  (1 / 2 : ℚ) • (M + Mᵀ)

theorem symmHalf_transpose {I : Type} (M : Matrix I I ℚ) : (symmHalf M)ᵀ = symmHalf M := by
  simp [symmHalf, Matrix.transpose_smul, Matrix.transpose_add, add_comm]

theorem symmHalf_smul {I : Type} (a : ℚ) (M : Matrix I I ℚ) :
    symmHalf (a • M) = a • symmHalf M := by
  simp only [symmHalf, Matrix.transpose_smul, smul_add, smul_comm a]

/-- Errors surfaced by the evaluators: the two `ValueError`s raised by input
validation, and `numpy.linalg.LinAlgError` propagated from a singular
solve/inverse. -/
inductive CrbErr
  | sourcesNotFF1D
  | badShape
  | singular
deriving DecidableEq

/-- Source placements.  `farField1D k` models a `FarField1DSourcePlacement`
of `k` sources; the other constructors model placements of other classes
(which the evaluators must reject). -/
inductive Placement
  | farField1D (k : ℕ)
  | farField2D (k : ℕ)
  | nearField1D (k : ℕ)
deriving DecidableEq

/-- `sources.size`: the number of sources of a placement. -/
def Placement.size : Placement → ℕ
  | .farField1D k => k
  | .farField2D k => k
  | .nearField1D k => k

/-- `isinstance(sources, FarField1DSourcePlacement)`. -/
def Placement.isFarField1D : Placement → Bool
  | .farField1D _ => true
  | _ => false

/-- The flexible power argument `p`: a scalar, a 1D array, or a 2D array
(source covariance matrix). -/
inductive PArg
  | scalar (x : ℚ)
  | vector (n : ℕ) (v : Fin n → ℚ)
  | matrix (r c : ℕ) (M : Matrix (Fin r) (Fin c) GQ)

/-- Whether the flexible array argument is a 2-dimensional k×k matrix. -/
def PArg.isMatrixKK : PArg → ℕ → Bool
  | .matrix r c _, k => if r = k ∧ c = k then true else false
  | _, _ => false

/-- Modelled from the spec: the power-specification normalizer
`unify_p_to_matrix` of doatools.performance.utils (file not present under
src/).  Expands a scalar/vector/matrix power spec into a full K×K source
covariance matrix, filling off-diagonals with zero for scalar/vector inputs;
fails with a shape error when a supplied matrix is not K×K or a vector is
not length K. -/
def unify_p_to_matrix (p : PArg) (k : ℕ) : Except CrbErr (Matrix (Fin k) (Fin k) GQ) :=
  match p with
  | .scalar x => .ok (Matrix.diagonal fun _ => GQ.ofRat x)
  | .vector n v =>
    if h : n = k then
      .ok (Matrix.diagonal fun i => GQ.ofRat (v (Fin.cast h.symm i)))
    else .error .badShape
  | .matrix r c M =>
    if h : r = k ∧ c = k then
      .ok (Matrix.of fun i j => M (Fin.cast h.1.symm i) (Fin.cast h.2.symm j))
    else .error .badShape

/-- Modelled from the spec: the power-specification normalizer
`unify_p_to_vector` of doatools.performance.utils (file not present under
src/).  Produces the length-K vector of per-source powers, extracting the
diagonal of a matrix input and discarding off-diagonal correlation; fails
with a shape error when a supplied matrix is not K×K or a vector is not
length K. -/
def unify_p_to_vector (p : PArg) (k : ℕ) : Except CrbErr (Fin k → GQ) :=
  match p with
  | .scalar x => .ok fun _ => GQ.ofRat x
  | .vector n v =>
    if h : n = k then
      .ok fun i => GQ.ofRat (v (Fin.cast h.symm i))
    else .error .badShape
  | .matrix r c M =>
    if h : r = k ∧ c = k then
      .ok fun i => M (Fin.cast h.1.symm i) (Fin.cast h.2.symm i)
    else .error .badShape

theorem fin_cast_self {k : ℕ} (h : k = k) (i : Fin k) : Fin.cast h i = i :=
  Fin.ext (by simp)

/-- A square matrix power spec of the right size normalizes, per the spec's
normalizer contract, to its diagonal. -/
theorem unify_p_to_vector_matrix_diag (k : ℕ) (M : Matrix (Fin k) (Fin k) GQ) :
    unify_p_to_vector (.matrix k k M) k = .ok fun i => M i i := by
  simp [unify_p_to_vector, fin_cast_self]

/-- crb.py lines 47-60: `crb_sto_farfield_1d(array, wavelength, sources, p,
sigma, n_snapshots)`.  The out-of-scope collaborator
`array.steering_matrix(sources, wavelength, True, 'all')` is passed in as
the pair `A`, `D` of an M×K steering matrix and its bearing derivative. -/
def crb_sto_farfield_1d (m : ℕ) (sources : Placement)
    (A D : Matrix (Fin m) (Fin sources.size) GQ)
    (p : PArg) (sigma n_snapshots : ℚ) :
    Except CrbErr (Matrix (Fin sources.size) (Fin sources.size) ℚ) :=
  if sources.isFarField1D then
    match unify_p_to_matrix p sources.size with
    | .error e => .error e
    | .ok P =>
      let A_H := Aᴴ
      let R := A * P * A_H + GQ.ofRat sigma • (1 : Matrix (Fin m) (Fin m) GQ)
      if detFin sources.size (A_H * A) = 0 then .error .singular else
      let P_A := A * (cinvF sources.size (A_H * A) * A_H)
      let H := Dᴴ * ((1 : Matrix (Fin m) (Fin m) GQ) - P_A) * D
      if detFin m R = 0 then .error .singular else
      let CRB0 := reMat (had H ((P * (A_H * (cinvF m R * A)) * P)ᵀ))
      if detFin sources.size CRB0 = 0 then .error .singular else
      .ok (symmHalf ((sigma / n_snapshots / 2) • rinvF sources.size CRB0))
  else .error .sourcesNotFF1D

/-- crb.py lines 99-113: `crb_det_farfield_1d(array, wavelength, sources, P,
sigma, n_snapshots)` with the sample covariance `P` given as a flexible
array argument whose dimensionality and shape are checked before any linear
algebra. -/
def crb_det_farfield_1d (m : ℕ) (sources : Placement)
    (A D : Matrix (Fin m) (Fin sources.size) GQ)
    (P : PArg) (sigma n_snapshots : ℚ) :
    Except CrbErr (Matrix (Fin sources.size) (Fin sources.size) ℚ) :=
  if sources.isFarField1D then
    match P with
    | .matrix r c M =>
      if h : r = sources.size ∧ c = sources.size then
        let Pm := Matrix.of fun i j => M (Fin.cast h.1.symm i) (Fin.cast h.2.symm j)
        let A_H := Aᴴ
        if detFin sources.size (A_H * A) = 0 then .error .singular else
        let P_A := A * (cinvF sources.size (A_H * A) * A_H)
        let H := Dᴴ * ((1 : Matrix (Fin m) (Fin m) GQ) - P_A) * D
        let CRB0 := reMat (had H Pmᵀ)
        if detFin sources.size CRB0 = 0 then .error .singular else
        .ok (symmHalf ((sigma / n_snapshots / 2) • rinvF sources.size CRB0))
      else .error .badShape
    | _ => .error .badShape
  else .error .sourcesNotFF1D

/-- Index type for the (2K+1)-parameter vector of the uncorrelated
stochastic model: K bearing angles, then K source powers, then the noise
variance. -/
def SIdx (k : ℕ) : Type := Fin k ⊕ (Fin k ⊕ Fin 1)

instance (k : ℕ) : DecidableEq (SIdx k) := by unfold SIdx; infer_instance

instance (k : ℕ) : Fintype (SIdx k) := by unfold SIdx; infer_instance

/-- The flat position of each block index in the (2K+1)-dimensional
parameter vector assembled by `np.block`: angles at 0..K-1, powers at
K..2K-1, the noise variance at 2K. -/
def finToSidx (k : ℕ) (i : Fin (2 * k + 1)) : SIdx k :=
  if h : (i : ℕ) < k then .inl ⟨i, h⟩
  else if h2 : (i : ℕ) < k + k then .inr (.inl ⟨(i : ℕ) - k, by omega⟩)
  else .inr (.inr 0)

theorem finToSidx_zero : finToSidx 1 0 = Sum.inl 0 := rfl

theorem finToSidx_one : finToSidx 1 1 = Sum.inr (Sum.inl 0) := rfl

theorem finToSidx_two : finToSidx 1 2 = Sum.inr (Sum.inr 0) := rfl

/-- crb.py lines 172-189: the blocks of the FIM of the uncorrelated
stochastic model, computed from the symmetrized inverse covariance `R_inv`
exactly as the code does (including the elementwise-product-and-column-sum
shortcut for `FIM_ts` and `FIM_ps`), and placed as by `np.block`. -/
def stoucFIM (m k : ℕ) (A DA : Matrix (Fin m) (Fin k) GQ)
    (pv : Fin k → GQ) (R_inv : Matrix (Fin m) (Fin m) GQ) :
    Matrix (SIdx k) (SIdx k) ℚ :=
  let A_H := Aᴴ
  let DA_H := DAᴴ
  let DRD := DA_H * R_inv * DA
  let DRA := DA_H * R_inv * A
  let ARD := A_H * R_inv * DA
  let ARA := A_H * R_inv * A
  let PP := Matrix.of fun i j => pv i * pv j
  let FIM_tt := (2 : ℚ) • reMat (had (had DRDᵀ ARA + had (conjMat DRA) ARD) PP)
  let FIM_pp := reMat (had ARAᴴ ARA)
  let R_inv2 := R_inv * R_inv
  let FIM_ss : ℚ := R_inv2.trace.re
  let FIM_tp := (2 : ℚ) • reMat (had (conjMat DRA) (Matrix.of fun i j => pv i * ARA i j))
  let FIM_ts : Fin k → ℚ := fun i => 2 * (pv i * ∑ l, star (DA l i) * (R_inv2 * A) l i).re
  let FIM_ps : Fin k → ℚ := fun i => (∑ l, star (A l i) * (R_inv2 * A) l i).re
  Matrix.of fun i j =>
    match i, j with
    | .inl i, .inl j => FIM_tt i j
    | .inl i, .inr (.inl j) => FIM_tp i j
    | .inl i, .inr (.inr _) => FIM_ts i
    | .inr (.inl i), .inl j => FIM_tp j i
    | .inr (.inl i), .inr (.inl j) => FIM_pp i j
    | .inr (.inl i), .inr (.inr _) => FIM_ps i
    | .inr (.inr _), .inl j => FIM_ts j
    | .inr (.inr _), .inr (.inl j) => FIM_ps j
    | .inr (.inr _), .inr (.inr _) => FIM_ss

/-- crb.py lines 115-191: `crb_stouc_farfield_1d(array, wavelength, sources,
p, sigma, n_snapshots, output_fim)`.  As in the source, the body never
consults `output_fim` and only the symmetrized K×K CRB is returned. -/
def crb_stouc_farfield_1d (m : ℕ) (sources : Placement)
    (A DA : Matrix (Fin m) (Fin sources.size) GQ)
    (p : PArg) (sigma n_snapshots : ℚ) (output_fim : Bool) :
    Except CrbErr (Matrix (Fin sources.size) (Fin sources.size) ℚ) :=
  if sources.isFarField1D then
    match unify_p_to_vector p sources.size with
    | .error e => .error e
    | .ok pv =>
      let A_H := Aᴴ
      let R := (Matrix.of fun i j => A i j * pv j) * A_H
                 + GQ.ofRat sigma • (1 : Matrix (Fin m) (Fin m) GQ)
      if detFin m R = 0 then .error .singular else
      let R_inv0 := cinvF m R
      let R_inv := GQ.ofRat (1 / 2) • (R_inv0 + R_inv0ᴴ)
      let FIM := (stoucFIM m sources.size A DA pv R_inv).submatrix
                   (finToSidx sources.size) (finToSidx sources.size)
      if detFin (2 * sources.size + 1) FIM = 0 then .error .singular else
      let FIMinv := rinvF (2 * sources.size + 1) FIM
      let CRB := Matrix.of fun i j : Fin sources.size =>
        FIMinv (Fin.castLE (by omega) i) (Fin.castLE (by omega) j) / n_snapshots
      .ok (symmHalf CRB)
  else .error .sourcesNotFF1D

/-- Column-broadcast `(A * p)` in numpy equals the matrix product
`A·diag(p)` of the spec. -/
theorem colScale_eq_mul_diagonal {m k : ℕ} (A : Matrix (Fin m) (Fin k) GQ)
    (pv : Fin k → GQ) :
    (Matrix.of fun i j => A i j * pv j) = A * Matrix.diagonal pv := by
  ext i j
  simp [Matrix.mul_diagonal]

/-- The elementwise-conjugate-multiply-and-column-sum shortcut of crb.py
line 183/184 extracts the diagonal of the sandwich product `Xᴴ·R₂·Y`. -/
theorem sum_conj_mul_eq_diag {m k : ℕ} (X Y : Matrix (Fin m) (Fin k) GQ)
    (R2 : Matrix (Fin m) (Fin m) GQ) (i : Fin k) :
    ∑ l, star (X l i) * (R2 * Y) l i = (Xᴴ * R2 * Y) i i := by
  rw [Matrix.mul_assoc, Matrix.mul_apply]
  exact Finset.sum_congr rfl fun l _ => by rw [Matrix.conjTranspose_apply]

/-- Spec 4.4 steps 2-10 (and the C1 angle-angle block formula): the FIM of
the uncorrelated stochastic model assembled from explicit matrix-product
blocks, `FIM = [[tt, tp, ts], [tpᵀ, pp, ps], [tsᵀ, psᵀ, ss]]`, with the
angle-noise and power-noise columns given as diagonals of `Dᴴ·R⁻²·A` and
`Aᴴ·R⁻²·A`. -/
def stoucFIMSpec (m k : ℕ) (A DA : Matrix (Fin m) (Fin k) GQ)
    (pv : Fin k → GQ) (R_inv : Matrix (Fin m) (Fin m) GQ) :
    Matrix (SIdx k) (SIdx k) ℚ :=
  let Ri2 := R_inv * R_inv
  let DRD := DAᴴ * R_inv * DA
  let DRA := DAᴴ * R_inv * A
  let ARD := Aᴴ * R_inv * DA
  let ARA := Aᴴ * R_inv * A
  let PP := Matrix.of fun i j => pv i * pv j
  let Ftt := (2 : ℚ) • reMat (had (had DRDᵀ ARA + had (conjMat DRA) ARD) PP)
  let Fpp := reMat (had ARAᴴ ARA)
  let Fss : Matrix (Fin 1) (Fin 1) ℚ := Matrix.of fun _ _ => Ri2.trace.re
  let Ftp := (2 : ℚ) • reMat (had (conjMat DRA) (Matrix.of fun i j => pv i * ARA i j))
  let Fts : Matrix (Fin k) (Fin 1) ℚ := Matrix.of fun i _ => 2 * (pv i * (DAᴴ * Ri2 * A) i i).re
  let Fps : Matrix (Fin k) (Fin 1) ℚ := Matrix.of fun i _ => ((Aᴴ * Ri2 * A) i i).re
  Matrix.fromBlocks Ftt (Matrix.fromColumns Ftp Fts)
    (Matrix.fromRows Ftpᵀ Ftsᵀ) (Matrix.fromBlocks Fpp Fps Fpsᵀ Fss)

/-- The FIM as crb.py computes it blockwise coincides with the spec's
block-matrix description. -/
theorem stoucFIM_eq_spec (m k : ℕ) (A DA : Matrix (Fin m) (Fin k) GQ)
    (pv : Fin k → GQ) (R_inv : Matrix (Fin m) (Fin m) GQ) :
    stoucFIM m k A DA pv R_inv = stoucFIMSpec m k A DA pv R_inv := by
  ext i j
  rcases i with i | i | i <;> rcases j with j | j | j <;>
    simp [stoucFIM, stoucFIMSpec, Matrix.fromBlocks, Matrix.fromColumns,
      Matrix.fromRows, sum_conj_mul_eq_diag]

/-- Spec 4.4 / C1: the uncorrelated stochastic evaluator per the spec's own
words — covariance `R = A·diag(p)·Aᴴ + σI` with Hermitian-symmetrized
inverse, the block FIM of `stoucFIMSpec`, inversion of the full
(2K+1)×(2K+1) FIM, extraction of the top-left K×K sub-block, division
by N, symmetrization. -/
def crb_stouc_spec (m : ℕ) (sources : Placement)
    (A DA : Matrix (Fin m) (Fin sources.size) GQ)
    (p : PArg) (sigma n_snapshots : ℚ) (output_fim : Bool) :
    Except CrbErr (Matrix (Fin sources.size) (Fin sources.size) ℚ) :=
  if sources.isFarField1D then
    match unify_p_to_vector p sources.size with
    | .error e => .error e
    | .ok pv =>
      let R := A * Matrix.diagonal pv * Aᴴ
                 + GQ.ofRat sigma • (1 : Matrix (Fin m) (Fin m) GQ)
      if detFin m R = 0 then .error .singular else
      let R_inv := GQ.ofRat (1 / 2) • (cinvF m R + (cinvF m R)ᴴ)
      let FIM := (stoucFIMSpec m sources.size A DA pv R_inv).submatrix
                   (finToSidx sources.size) (finToSidx sources.size)
      if detFin (2 * sources.size + 1) FIM = 0 then .error .singular else
      let FIMinv := rinvF (2 * sources.size + 1) FIM
      let CRB := Matrix.of fun i j : Fin sources.size =>
        FIMinv (Fin.castLE (by omega) i) (Fin.castLE (by omega) j) / n_snapshots
      .ok (symmHalf CRB)
  else .error .sourcesNotFF1D

/-- Spec 4.2 / C2: the stochastic (correlated) evaluator per the spec's own
words — `R = A·P·Aᴴ + σI`, orthogonal projector `P_A = A·(AᴴA)⁻¹·Aᴴ`,
`H = Dᴴ·(I − P_A)·D`, FIM contribution `Re[H ⊙ (P·Aᴴ·R⁻¹·A·P)ᵀ]`, inverted
and scaled by `σ/(2N)`, then symmetrized. -/
def crb_sto_spec (m : ℕ) (sources : Placement)
    (A D : Matrix (Fin m) (Fin sources.size) GQ)
    (p : PArg) (sigma n_snapshots : ℚ) :
    Except CrbErr (Matrix (Fin sources.size) (Fin sources.size) ℚ) :=
  if sources.isFarField1D then
    match unify_p_to_matrix p sources.size with
    | .error e => .error e
    | .ok P =>
      let R := A * P * Aᴴ + GQ.ofRat sigma • (1 : Matrix (Fin m) (Fin m) GQ)
      if detFin sources.size (Aᴴ * A) = 0 then .error .singular else
      let P_A := A * cinvF sources.size (Aᴴ * A) * Aᴴ
      let H := Dᴴ * ((1 : Matrix (Fin m) (Fin m) GQ) - P_A) * D
      if detFin m R = 0 then .error .singular else
      let CRB0 := reMat (had H ((P * Aᴴ * cinvF m R * A * P)ᵀ))
      if detFin sources.size CRB0 = 0 then .error .singular else
      .ok (symmHalf ((sigma / (2 * n_snapshots)) • rinvF sources.size CRB0))
  else .error .sourcesNotFF1D

/-- A Gaussian-rational literal. -/
def gq (a b : ℚ) : GQ := ⟨a, b⟩

@[simp] theorem gq_re (a b : ℚ) : (gq a b).re = a := rfl

@[simp] theorem gq_im (a b : ℚ) : (gq a b).im = b := rfl

/-- Concrete 2-sensor steering matrix for one source. -/
def wSteerA : Matrix (Fin 2) (Fin 1) GQ := Matrix.of fun i _ => if i = 0 then gq 1 0 else gq 0 0

/-- Concrete bearing derivative of `wSteerA`. -/
def wSteerD : Matrix (Fin 2) (Fin 1) GQ := Matrix.of fun i _ => if i = 0 then gq 0 0 else gq 1 0

/-- Iota-reduction of `crb_sto_farfield_1d` at a far-field 1D placement and
a scalar power: the validation branches pass and the normalizer returns the
scalar diagonal. -/
theorem crb_sto_scalar_farField1D (m k : ℕ) (A D : Matrix (Fin m) (Fin k) GQ)
    (x sigma n : ℚ) :
    crb_sto_farfield_1d m (.farField1D k) A D (.scalar x) sigma n =
      (let P := Matrix.diagonal fun _ : Fin k => GQ.ofRat x
      let R := A * P * Aᴴ + GQ.ofRat sigma • (1 : Matrix (Fin m) (Fin m) GQ)
      if detFin k (Aᴴ * A) = 0 then .error .singular else
      let P_A := A * (cinvF k (Aᴴ * A) * Aᴴ)
      let H := Dᴴ * ((1 : Matrix (Fin m) (Fin m) GQ) - P_A) * D
      if detFin m R = 0 then .error .singular else
      let CRB0 := reMat (had H ((P * (Aᴴ * (cinvF m R * A)) * P)ᵀ))
      if detFin k CRB0 = 0 then .error .singular else
      .ok (symmHalf ((sigma / n / 2) • rinvF k CRB0))) := rfl

/-- Iota-reduction of `crb_det_farfield_1d` at a one-source far-field 1D
placement and a 1×1 sample covariance matrix. -/
theorem crb_det_matrix_farField1D (m : ℕ) (A D : Matrix (Fin m) (Fin 1) GQ)
    (M : Matrix (Fin 1) (Fin 1) GQ) (sigma n : ℚ) :
    crb_det_farfield_1d m (.farField1D 1) A D (.matrix 1 1 M) sigma n =
      (if detFin 1 (Aᴴ * A) = 0 then .error .singular else
      let P_A := A * (cinvF 1 (Aᴴ * A) * Aᴴ)
      let H := Dᴴ * ((1 : Matrix (Fin m) (Fin m) GQ) - P_A) * D
      let CRB0 := reMat (had H Mᵀ)
      if detFin 1 CRB0 = 0 then .error .singular else
      .ok (symmHalf ((sigma / n / 2) • rinvF 1 CRB0))) := rfl

/-- Fully literal iota-reduction of `crb_stouc_farfield_1d` at one source,
two sensors, scalar power. -/
theorem crb_stouc_scalar_ff1 (A DA : Matrix (Fin 2) (Fin 1) GQ)
    (x sigma n : ℚ) (b : Bool) :
    crb_stouc_farfield_1d 2 (.farField1D 1) A DA (.scalar x) sigma n b =
      (let pv : Fin 1 → GQ := fun _ => GQ.ofRat x
      let R := (Matrix.of fun i j => A i j * pv j) * Aᴴ
                 + GQ.ofRat sigma • (1 : Matrix (Fin 2) (Fin 2) GQ)
      if detFin 2 R = 0 then .error .singular else
      let R_inv := GQ.ofRat (1 / 2) • (cinvF 2 R + (cinvF 2 R)ᴴ)
      let FIM := (stoucFIM 2 1 A DA pv R_inv).submatrix (finToSidx 1) (finToSidx 1)
      if detFin 3 FIM = 0 then .error .singular else
      .ok (symmHalf (Matrix.of fun i j : Fin 1 =>
        rinvF 3 FIM (Fin.castLE (by omega) i) (Fin.castLE (by omega) j) / n))) := rfl

theorem wit_sto_eval :
    crb_sto_farfield_1d 2 (.farField1D 1) wSteerA wSteerD (.scalar 1) 1 1
      = .ok (Matrix.of fun _ _ => (1 : ℚ)) := by
  rw [crb_sto_scalar_farField1D]
  norm_num [detFin_one, detFin_two, adjFin_one, adjFin_two, cinvF, rinvF,
    GQ.inv, had, reMat, conjMat, symmHalf, wSteerA, wSteerD, GQ.eq_iff,
    Matrix.mul_apply, Matrix.conjTranspose_apply, Matrix.transpose_apply,
    Matrix.smul_apply, Matrix.one_apply, Matrix.sub_apply, Matrix.add_apply,
    Matrix.of_apply, Matrix.diagonal_apply, Fin.sum_univ_two, Fin.sum_univ_one,
    Matrix.vecHead, Matrix.vecTail, smul_eq_mul, ← Matrix.ext_iff,
    Fin.forall_fin_one]
  intro i j
  have hij : i = j := Fin.ext (by
    have hi := i.isLt
    have hj := j.isLt
    simp only [Placement.size] at hi hj
    omega)
  simp [hij]
  norm_num

theorem wit_det_eval :
    crb_det_farfield_1d 2 (.farField1D 1) wSteerA wSteerD
        (.matrix 1 1 (Matrix.of fun _ _ => gq 1 0)) 1 1
      = .ok (Matrix.of fun _ _ => (1 / 2 : ℚ)) := by
  rw [crb_det_matrix_farField1D]
  norm_num [detFin_one, detFin_two, adjFin_one, adjFin_two, cinvF, rinvF,
    GQ.inv, had, reMat, conjMat, symmHalf, wSteerA, wSteerD, GQ.eq_iff,
    Matrix.mul_apply, Matrix.conjTranspose_apply, Matrix.transpose_apply,
    Matrix.smul_apply, Matrix.one_apply, Matrix.sub_apply, Matrix.add_apply,
    Matrix.of_apply, Matrix.diagonal_apply, Fin.sum_univ_two, Fin.sum_univ_one,
    Matrix.vecHead, Matrix.vecTail, smul_eq_mul, ← Matrix.ext_iff,
    Fin.forall_fin_one]
  intro i j
  have hij : i = j := Fin.ext (by
    have hi := i.isLt
    have hj := j.isLt
    simp only [Placement.size] at hi hj
    omega)
  simp [hij]
  norm_num

theorem wit_stouc_eval :
    crb_stouc_farfield_1d 2 (.farField1D 1) wSteerA wSteerD (.scalar 1) 1 1 false
      = .ok (Matrix.of fun _ _ => (1 : ℚ)) := by
  rw [crb_stouc_scalar_ff1]
  norm_num [detFin_one, detFin_two, detFin_three, adjFin_one, adjFin_two,
    adjFin_three, cinvF, rinvF, GQ.inv, had, reMat, conjMat, symmHalf,
    stoucFIM, finToSidx_zero, finToSidx_one, finToSidx_two,
    wSteerA, wSteerD, GQ.eq_iff, Matrix.submatrix_apply, Matrix.trace,
    Matrix.diag, Matrix.mul_apply, Matrix.conjTranspose_apply,
    Matrix.transpose_apply, Matrix.smul_apply, Matrix.one_apply,
    Matrix.sub_apply, Matrix.add_apply, Matrix.of_apply, Matrix.diagonal_apply,
    Fin.sum_univ_two, Fin.sum_univ_one, Matrix.vecHead, Matrix.vecTail,
    smul_eq_mul, ← Matrix.ext_iff, Fin.forall_fin_one]
  intro i j
  have hi0 : (i : ℕ) = 0 := by have h1 : (i : ℕ) < 1 := i.isLt; omega
  have hj0 : (j : ℕ) = 0 := by have h1 : (j : ℕ) < 1 := j.isLt; omega
  have hci : ∀ (h : (Placement.farField1D 1).size ≤ 3), Fin.castLE h i = 0 :=
    fun h => Fin.ext (by simp [hi0])
  have hcj : ∀ (h : (Placement.farField1D 1).size ≤ 3), Fin.castLE h j = 0 :=
    fun h => Fin.ext (by simp [hj0])
  simp [hci, hcj]
  norm_num

/-- C1: for every input, `crb_stouc_farfield_1d` builds the (2K+1)×(2K+1)
Fisher information matrix from the specified blocks — in particular the
angle-angle block is `2·Re[(DRDᵀ ⊙ ARA + conj(DRA) ⊙ ARD) ⊙ ppᵀ]` with
`DRD = Dᴴ R⁻¹ D`, `DRA = Dᴴ R⁻¹ A`, `ARD = Aᴴ R⁻¹ D`, `ARA = Aᴴ R⁻¹ A` and
`R = A·diag(p)·Aᴴ + σI` with Hermitian-symmetrized inverse — then inverts
the full FIM, takes the top-left K×K sub-block and divides it by N: the
code-level evaluator coincides with `crb_stouc_spec`, the pipeline written
from the spec's formulas. -/
theorem crb_stouc_matches_spec (m : ℕ) (sources : Placement)
    (A DA : Matrix (Fin m) (Fin sources.size) GQ)
    (p : PArg) (sigma n_snapshots : ℚ) (b : Bool) :
    crb_stouc_farfield_1d m sources A DA p sigma n_snapshots b
      = crb_stouc_spec m sources A DA p sigma n_snapshots b := by
  simp only [crb_stouc_farfield_1d, crb_stouc_spec, colScale_eq_mul_diagonal,
    stoucFIM_eq_spec]

/-- C2: for every input, `crb_sto_farfield_1d` returns the symmetrized value
of `inv(Re[H ⊙ (P·Aᴴ·R⁻¹·A·P)ᵀ]) · σ/(2N)` with `H = Dᴴ(I − P_A)D`,
`P_A = A·(AᴴA)⁻¹·Aᴴ`, `R = A·P·Aᴴ + σI` and `P` the normalized K×K
covariance: the code-level evaluator coincides with `crb_sto_spec`, the
pipeline written from the spec's formulas (on singular inputs both sides
propagate the same linear-algebra failure). -/
theorem crb_sto_matches_spec (m : ℕ) (sources : Placement)
    (A D : Matrix (Fin m) (Fin sources.size) GQ)
    (p : PArg) (sigma n_snapshots : ℚ) :
    crb_sto_farfield_1d m sources A D p sigma n_snapshots
      = crb_sto_spec m sources A D p sigma n_snapshots := by
  have hs : sigma / n_snapshots / 2 = sigma / (2 * n_snapshots) := by
    rw [div_div, mul_comm]
  simp only [crb_sto_farfield_1d, crb_sto_spec, Matrix.mul_assoc, hs]

/-- C3: whenever any of the three evaluators returns successfully, the
returned CRB matrix equals its own transpose, because every returned value
is of the form `0.5·(CRB + CRBᵀ)`. -/
theorem crb_all_symmetric (m : ℕ) (sources : Placement)
    (A D : Matrix (Fin m) (Fin sources.size) GQ)
    (p P : PArg) (sigma n : ℚ) (b : Bool)
    (W1 W2 W3 : Matrix (Fin sources.size) (Fin sources.size) ℚ) :
    (crb_sto_farfield_1d m sources A D p sigma n = .ok W1 → W1ᵀ = W1)
  ∧ (crb_det_farfield_1d m sources A D P sigma n = .ok W2 → W2ᵀ = W2)
  ∧ (crb_stouc_farfield_1d m sources A D p sigma n b = .ok W3 → W3ᵀ = W3) := by
  refine ⟨?_, ?_, ?_⟩ <;> intro h
  · unfold crb_sto_farfield_1d at h
    simp only [] at h
    repeat' split at h
    any_goals exact Except.noConfusion h
    rw [← Except.ok.inj h]
    exact symmHalf_transpose _
  · unfold crb_det_farfield_1d at h
    simp only [] at h
    repeat' split at h
    any_goals exact Except.noConfusion h
    rw [← Except.ok.inj h]
    exact symmHalf_transpose _
  · unfold crb_stouc_farfield_1d at h
    simp only [] at h
    repeat' split at h
    any_goals exact Except.noConfusion h
    rw [← Except.ok.inj h]
    exact symmHalf_transpose _

theorem crb_all_symmetric_witness :
    (crb_sto_farfield_1d 2 (.farField1D 1) wSteerA wSteerD (.scalar 1) 1 1
        = .ok (Matrix.of fun _ _ => (1 : ℚ)))
  ∧ ((Matrix.of fun _ _ => (1 : ℚ)) :
        Matrix (Fin (Placement.farField1D 1).size) (Fin (Placement.farField1D 1).size) ℚ)ᵀ
      = (Matrix.of fun _ _ => (1 : ℚ))
  ∧ (crb_det_farfield_1d 2 (.farField1D 1) wSteerA wSteerD
        (.matrix 1 1 (Matrix.of fun _ _ => gq 1 0)) 1 1
        = .ok (Matrix.of fun _ _ => (1 / 2 : ℚ)))
  ∧ ((Matrix.of fun _ _ => (1 / 2 : ℚ)) :
        Matrix (Fin (Placement.farField1D 1).size) (Fin (Placement.farField1D 1).size) ℚ)ᵀ
      = (Matrix.of fun _ _ => (1 / 2 : ℚ))
  ∧ (crb_stouc_farfield_1d 2 (.farField1D 1) wSteerA wSteerD (.scalar 1) 1 1 false
        = .ok (Matrix.of fun _ _ => (1 : ℚ)))
  ∧ ((Matrix.of fun _ _ => (1 : ℚ)) :
        Matrix (Fin (Placement.farField1D 1).size) (Fin (Placement.farField1D 1).size) ℚ)ᵀ
      = (Matrix.of fun _ _ => (1 : ℚ)) :=
  ⟨wit_sto_eval,
   (crb_all_symmetric 2 (.farField1D 1) wSteerA wSteerD (.scalar 1)
      (.matrix 1 1 (Matrix.of fun _ _ => gq 1 0)) 1 1 false
      (Matrix.of fun _ _ => (1 : ℚ)) (Matrix.of fun _ _ => (1 / 2 : ℚ))
      (Matrix.of fun _ _ => (1 : ℚ))).1 wit_sto_eval,
   wit_det_eval,
   (crb_all_symmetric 2 (.farField1D 1) wSteerA wSteerD (.scalar 1)
      (.matrix 1 1 (Matrix.of fun _ _ => gq 1 0)) 1 1 false
      (Matrix.of fun _ _ => (1 : ℚ)) (Matrix.of fun _ _ => (1 / 2 : ℚ))
      (Matrix.of fun _ _ => (1 : ℚ))).2.1 wit_det_eval,
   wit_stouc_eval,
   (crb_all_symmetric 2 (.farField1D 1) wSteerA wSteerD (.scalar 1)
      (.matrix 1 1 (Matrix.of fun _ _ => gq 1 0)) 1 1 false
      (Matrix.of fun _ _ => (1 : ℚ)) (Matrix.of fun _ _ => (1 / 2 : ℚ))
      (Matrix.of fun _ _ => (1 : ℚ))).2.2 wit_stouc_eval⟩

/-- C4 (code evidence): contrary to the spec, the `output_fim` flag of
`crb_stouc_farfield_1d` has no effect on the result — the body never
consults it and the raw FIM is never returned; the return type carries only
the K×K CRB matrix. -/
theorem crb_stouc_output_fim_no_effect (m : ℕ) (sources : Placement)
    (A DA : Matrix (Fin m) (Fin sources.size) GQ)
    (p : PArg) (sigma n_snapshots : ℚ) :
    crb_stouc_farfield_1d m sources A DA p sigma n_snapshots true
      = crb_stouc_farfield_1d m sources A DA p sigma n_snapshots false := rfl

/-- C5: for every input and positive snapshot count `n`, evaluating the
stochastic and deterministic evaluators with snapshot count `2n` yields
exactly half the CRB obtained with snapshot count `n` (entrywise, through
the `Except` result). -/
theorem crb_doubling_snapshots_halves (m : ℕ) (sources : Placement)
    (A D : Matrix (Fin m) (Fin sources.size) GQ)
    (p P : PArg) (sigma n : ℚ) (hn : 0 < n) :
    (crb_sto_farfield_1d m sources A D p sigma (2 * n)
       = Except.map (fun C => (1 / 2 : ℚ) • C) (crb_sto_farfield_1d m sources A D p sigma n))
  ∧ (crb_det_farfield_1d m sources A D P sigma (2 * n)
       = Except.map (fun C => (1 / 2 : ℚ) • C) (crb_det_farfield_1d m sources A D P sigma n)) := by
  have hs : sigma / (2 * n) / 2 = (1 / 2) * (sigma / n / 2) := by
    ring
  constructor
  · unfold crb_sto_farfield_1d
    cases hb : sources.isFarField1D <;> simp only [Bool.false_eq_true, if_false, if_true]
    · rfl
    · cases hu : unify_p_to_matrix p sources.size <;> simp only []
      · rfl
      · split_ifs <;> simp only [Except.map, hs, ← smul_smul, symmHalf_smul]
  · unfold crb_det_farfield_1d
    cases hb : sources.isFarField1D <;> simp only [Bool.false_eq_true, if_false, if_true]
    · rfl
    · cases P <;> simp only []
      · rfl
      · rfl
      · split_ifs <;> simp only [Except.map, hs, ← smul_smul, symmHalf_smul]

theorem crb_doubling_snapshots_halves_witness :
    (0 : ℚ) < 1
  ∧ (crb_sto_farfield_1d 2 (.farField1D 1) wSteerA wSteerD (.scalar 1) 1 (2 * 1)
       = Except.map (fun C => (1 / 2 : ℚ) • C)
           (crb_sto_farfield_1d 2 (.farField1D 1) wSteerA wSteerD (.scalar 1) 1 1))
  ∧ (crb_det_farfield_1d 2 (.farField1D 1) wSteerA wSteerD
        (.matrix 1 1 (Matrix.of fun _ _ => gq 1 0)) 1 (2 * 1)
       = Except.map (fun C => (1 / 2 : ℚ) • C)
           (crb_det_farfield_1d 2 (.farField1D 1) wSteerA wSteerD
             (.matrix 1 1 (Matrix.of fun _ _ => gq 1 0)) 1 1)) :=
  ⟨by norm_num,
   (crb_doubling_snapshots_halves 2 (.farField1D 1) wSteerA wSteerD (.scalar 1)
      (.matrix 1 1 (Matrix.of fun _ _ => gq 1 0)) 1 1 (by norm_num)).1,
   (crb_doubling_snapshots_halves 2 (.farField1D 1) wSteerA wSteerD (.scalar 1)
      (.matrix 1 1 (Matrix.of fun _ _ => gq 1 0)) 1 1 (by norm_num)).2⟩

/-- C7: two calls of `crb_stouc_farfield_1d` whose K×K matrix power
arguments have identical diagonals (all other arguments equal) return
identical results: the matrix power spec is used only through its
diagonal. -/
theorem crb_stouc_depends_only_on_diagonal (m : ℕ) (sources : Placement)
    (A DA : Matrix (Fin m) (Fin sources.size) GQ)
    (M1 M2 : Matrix (Fin sources.size) (Fin sources.size) GQ)
    (hd : ∀ i, M1 i i = M2 i i) (sigma n : ℚ) (b : Bool) :
    crb_stouc_farfield_1d m sources A DA (.matrix sources.size sources.size M1) sigma n b
      = crb_stouc_farfield_1d m sources A DA
          (.matrix sources.size sources.size M2) sigma n b := by
  have hpv : (fun i => M1 i i) = fun i => M2 i i := funext hd
  simp only [crb_stouc_farfield_1d, unify_p_to_vector_matrix_diag, hpv]

theorem crb_stouc_depends_only_on_diagonal_witness :
    (∀ i, (Matrix.of fun i j : Fin (Placement.farField1D 2).size =>
             if i = j then gq 2 0 else gq 0 0) i i
        = (Matrix.of fun i j : Fin (Placement.farField1D 2).size =>
             if i = j then gq 2 0 else gq 5 7) i i)
  ∧ crb_stouc_farfield_1d 2 (.farField1D 2)
        (Matrix.of fun _ _ => gq 1 0) (Matrix.of fun _ _ => gq 0 1)
        (.matrix 2 2 (Matrix.of fun i j => if i = j then gq 2 0 else gq 0 0)) 1 1 false
      = crb_stouc_farfield_1d 2 (.farField1D 2)
        (Matrix.of fun _ _ => gq 1 0) (Matrix.of fun _ _ => gq 0 1)
        (.matrix 2 2 (Matrix.of fun i j => if i = j then gq 2 0 else gq 5 7)) 1 1 false :=
  ⟨fun i => by simp,
   crb_stouc_depends_only_on_diagonal 2 (.farField1D 2)
     (Matrix.of fun _ _ => gq 1 0) (Matrix.of fun _ _ => gq 0 1)
     (Matrix.of fun i j => if i = j then gq 2 0 else gq 0 0)
     (Matrix.of fun i j => if i = j then gq 2 0 else gq 5 7)
     (fun i => by simp) 1 1 false⟩

/-- C8: for every source placement that is not far-field 1D, each of the
three evaluators returns the sources `ValueError` — for all numeric
arguments, hence before and independently of any numeric work. -/
theorem crb_rejects_non_farfield_1d (sources : Placement)
    (h : sources.isFarField1D = false) (m : ℕ)
    (A D : Matrix (Fin m) (Fin sources.size) GQ)
    (p P : PArg) (sigma n : ℚ) (b : Bool) :
    crb_sto_farfield_1d m sources A D p sigma n = .error .sourcesNotFF1D
  ∧ crb_det_farfield_1d m sources A D P sigma n = .error .sourcesNotFF1D
  ∧ crb_stouc_farfield_1d m sources A D p sigma n b = .error .sourcesNotFF1D := by
  refine ⟨?_, ?_, ?_⟩ <;>
    simp [crb_sto_farfield_1d, crb_det_farfield_1d, crb_stouc_farfield_1d, h]

theorem crb_rejects_non_farfield_1d_witness :
    (Placement.farField2D 1).isFarField1D = false
  ∧ crb_sto_farfield_1d 2 (.farField2D 1) wSteerA wSteerD (.scalar 1) 1 1
      = .error .sourcesNotFF1D
  ∧ crb_det_farfield_1d 2 (.farField2D 1) wSteerA wSteerD (.scalar 1) 1 1
      = .error .sourcesNotFF1D
  ∧ crb_stouc_farfield_1d 2 (.farField2D 1) wSteerA wSteerD (.scalar 1) 1 1 false
      = .error .sourcesNotFF1D :=
  ⟨rfl, (crb_rejects_non_farfield_1d (.farField2D 1) rfl 2 wSteerA wSteerD
      (.scalar 1) (.scalar 1) 1 1 false).1,
    (crb_rejects_non_farfield_1d (.farField2D 1) rfl 2 wSteerA wSteerD
      (.scalar 1) (.scalar 1) 1 1 false).2.1,
    (crb_rejects_non_farfield_1d (.farField2D 1) rfl 2 wSteerA wSteerD
      (.scalar 1) (.scalar 1) 1 1 false).2.2⟩

/-- C9: for a far-field 1D placement of K sources, if the sample covariance
argument of `crb_det_farfield_1d` is not a 2-dimensional K×K matrix, the
evaluator returns the shape `ValueError` — for all steering matrices and
numeric arguments, hence before any linear algebra. -/
theorem crb_det_rejects_bad_shape (m : ℕ) (sources : Placement)
    (h1 : sources.isFarField1D = true) (P : PArg)
    (h2 : P.isMatrixKK sources.size = false)
    (A D : Matrix (Fin m) (Fin sources.size) GQ) (sigma n : ℚ) :
    crb_det_farfield_1d m sources A D P sigma n = .error .badShape := by
  unfold crb_det_farfield_1d
  rw [h1]
  cases P with
  | scalar x => simp
  | vector l v => simp
  | matrix r c M =>
    simp only [PArg.isMatrixKK] at h2
    split at h2
    · exact Bool.noConfusion h2
    · simp only [if_true]
      rw [dif_neg (by assumption)]

theorem crb_det_rejects_bad_shape_witness :
    (Placement.farField1D 1).isFarField1D = true
  ∧ PArg.isMatrixKK (.vector 2 fun _ => 1) (Placement.farField1D 1).size = false
  ∧ crb_det_farfield_1d 2 (.farField1D 1) wSteerA wSteerD
      (.vector 2 fun _ => 1) 1 1 = .error .badShape :=
  ⟨rfl, rfl,
   crb_det_rejects_bad_shape 2 (.farField1D 1) rfl (.vector 2 fun _ => 1) rfl
     wSteerA wSteerD 1 1⟩

/-- C10: none of the three evaluators validates the noise variance or the
snapshot count — for every `sigma` (including negative values) and every
nonzero `n` (including negative or non-integer values), given a far-field
1D placement and a well-shaped power argument, the result is either a
returned matrix or a propagated linear-algebra (singularity) failure,
never an input-validation error. -/
theorem crb_no_validation_on_sigma_n (m : ℕ) (sources : Placement)
    (h1 : sources.isFarField1D = true)
    (A D : Matrix (Fin m) (Fin sources.size) GQ)
    (p P : PArg) (sigma n : ℚ) (hn : n ≠ 0) (b : Bool) :
    ((∃ Pm, unify_p_to_matrix p sources.size = .ok Pm) →
      (∃ W, crb_sto_farfield_1d m sources A D p sigma n = .ok W)
        ∨ crb_sto_farfield_1d m sources A D p sigma n = .error .singular)
  ∧ (P.isMatrixKK sources.size = true →
      (∃ W, crb_det_farfield_1d m sources A D P sigma n = .ok W)
        ∨ crb_det_farfield_1d m sources A D P sigma n = .error .singular)
  ∧ ((∃ pv, unify_p_to_vector p sources.size = .ok pv) →
      (∃ W, crb_stouc_farfield_1d m sources A D p sigma n b = .ok W)
        ∨ crb_stouc_farfield_1d m sources A D p sigma n b = .error .singular) := by
  refine ⟨?_, ?_, ?_⟩
  · rintro ⟨Pm, hu⟩
    unfold crb_sto_farfield_1d
    rw [h1]
    simp only [hu, if_true]
    split_ifs <;> simp
  · intro hP
    cases P with
    | scalar x => exact Bool.noConfusion hP
    | vector l v => exact Bool.noConfusion hP
    | matrix r c M =>
      unfold crb_det_farfield_1d
      rw [h1]
      simp only [PArg.isMatrixKK] at hP
      split at hP
      · simp only [if_true]
        rw [dif_pos (by assumption)]
        split_ifs <;> simp
      · exact Bool.noConfusion hP
  · rintro ⟨pv, hu⟩
    unfold crb_stouc_farfield_1d
    rw [h1]
    simp only [hu, if_true]
    split_ifs <;> simp

theorem crb_no_validation_on_sigma_n_witness :
    (Placement.farField1D 1).isFarField1D = true
  ∧ (-3 / 2 : ℚ) ≠ 0
  ∧ ((∃ W, crb_sto_farfield_1d 2 (.farField1D 1) wSteerA wSteerD (.scalar 1)
             (-5) (-3 / 2) = .ok W)
       ∨ crb_sto_farfield_1d 2 (.farField1D 1) wSteerA wSteerD (.scalar 1)
             (-5) (-3 / 2) = .error .singular)
  ∧ ((∃ W, crb_det_farfield_1d 2 (.farField1D 1) wSteerA wSteerD
             (.matrix 1 1 (Matrix.of fun _ _ => gq 1 0)) (-5) (-3 / 2) = .ok W)
       ∨ crb_det_farfield_1d 2 (.farField1D 1) wSteerA wSteerD
             (.matrix 1 1 (Matrix.of fun _ _ => gq 1 0)) (-5) (-3 / 2) = .error .singular)
  ∧ ((∃ W, crb_stouc_farfield_1d 2 (.farField1D 1) wSteerA wSteerD (.scalar 1)
             (-5) (-3 / 2) false = .ok W)
       ∨ crb_stouc_farfield_1d 2 (.farField1D 1) wSteerA wSteerD (.scalar 1)
             (-5) (-3 / 2) false = .error .singular) :=
  ⟨rfl, by norm_num,
   (crb_no_validation_on_sigma_n 2 (.farField1D 1) rfl wSteerA wSteerD (.scalar 1)
      (.matrix 1 1 (Matrix.of fun _ _ => gq 1 0)) (-5) (-3 / 2) (by norm_num) false).1
     ⟨_, rfl⟩,
   (crb_no_validation_on_sigma_n 2 (.farField1D 1) rfl wSteerA wSteerD (.scalar 1)
      (.matrix 1 1 (Matrix.of fun _ _ => gq 1 0)) (-5) (-3 / 2) (by norm_num) false).2.1
     rfl,
   (crb_no_validation_on_sigma_n 2 (.farField1D 1) rfl wSteerA wSteerD (.scalar 1)
      (.matrix 1 1 (Matrix.of fun _ _ => gq 1 0)) (-5) (-3 / 2) (by norm_num) false).2.2
     ⟨_, rfl⟩⟩
